import Mathlib

/-!
# Verification of the yaiouom dimensional-analysis pass

Shallow embedding of the units-of-measure checker of
`crates/driver/src/dimanalysis.rs` and of the runtime unit library of
`crates/yaiouom/src/unit.rs`, together with proofs of the spec's claims
about them.

The checker walks a type-checked body, finds `unify` calls, and for each
call accumulates the two unit-expressions into two `HashMap<Ty,
(HashSet<Span>, i32)>` tables (`left` for the source unit, `right` for the
target unit), simplifies away zero exponents, and reports a diagnostic
when the two tables differ.  Rustc types in unit position are embedded as
the inductive `UnitTy`; interned `Ty` keys of the hash maps are embedded
as `Gen`; the hash maps themselves as insertion-ordered association lists
compared with the `HashMap`/`HashSet` equality semantics (same size, every
key of one present in the other with equal value).
-/

namespace Yaiouom

/-- Source spans (`syntax::codemap::Span`), abstracted as naturals. -/
abbrev Span := Nat

/-- An interned rustc type serving as a hash-map key in the analysis:
either a base-unit ADT (`ty::TyAdt` without a combinator attribute, keyed
by its nominal identity) or a type parameter (`ty::TyParam`, keyed by its
owning declaration and index).  Both identities are collapsed to a `Nat`
key. -/
inductive Gen where
  | base (id : Nat)
  | param (id : Nat)
deriving DecidableEq

/-- `tcx.def_span` of the definition behind a generator (the ADT
definition for a base unit, the parameter's declaration for a type
parameter).  Distinct definitions get distinct spans. -/
def Gen.defSpan : Gen → Span
  | .base id => 2 * id
  | .param id => 2 * id + 1

/-- `tcx.item_path_str` of the definition behind a generator: the display
name used by `UnitConstraints::describe`. -/
def Gen.name : Gen → String
  | .base id => "u" ++ toString id
  | .param id => "p" ++ toString id

/-- A rustc type (`ty::Ty`) appearing in unit position, as classified by
`UnitConstraints::add`:
* `mul a b` — a `ty::TyAdt` whose definition carries the
  `rustc_yaiouom_combinator_mul` attribute, with substs `[a, b]`;
* `inv a` — a `ty::TyAdt` carrying `rustc_yaiouom_combinator_inv`,
  with substs `[a]`;
* `dimensionless` — a `ty::TyAdt` carrying
  `rustc_yaiouom_combinator_dimensionless`;
* `base id` — any other `ty::TyAdt` (a base unit);
* `param id` — a `ty::TyParam`;
* `error` — `ty::TyError` (the host checker already has an error queued);
* `other` — any other `ty::Ty` shape (hits the `panic!` arm of `add`). -/
inductive UnitTy where
  | mul (a b : UnitTy)
  | inv (a : UnitTy)
  | dimensionless
  | base (id : Nat)
  | param (id : Nat)
  | error
  | other
deriving DecidableEq

/-- One value of the constraint tables: the `(HashSet<Span>, i32)` pair. -/
abbrev Entry := List Span × Int

/-- One constraint table: `HashMap<Ty, (HashSet<Span>, i32)>`, embedded as
an association list in insertion order. -/
abbrev Table := List (Gen × Entry)

/-- `HashSet::insert`: add a span unless it is already present. -/
def insertSpan (s : Span) (ss : List Span) : List Span :=
  if s ∈ ss then ss else ss ++ [s]

/-- `HashMap::get`. -/
def Table.lookup : Table → Gen → Option Entry
  | [], _ => none
  | (g', v) :: rest, g => if g' = g then some v else Table.lookup rest g

/-- `UnitConstraints::add_one` on a single table:
`table.entry(ty).or_insert_with(|| (HashSet::new(), 0))`, then insert the
span into the set and add or subtract 1 from the exponent. -/
def Table.addOne : Table → Gen → Span → Bool → Table
  | [], g, sp, positive =>
      [(g, (insertSpan sp [], if positive then 0 + 1 else 0 - 1))]
  | (g', v) :: rest, g, sp, positive =>
      if g' = g then
        (g', (insertSpan sp v.1, if positive then v.2 + 1 else v.2 - 1)) :: rest
      else
        (g', v) :: Table.addOne rest g sp positive

/-- One table's part of `UnitConstraints::simplify`:
`retain(|_, v| v.1 != 0)`. -/
def Table.simplify (t : Table) : Table :=
  t.filter (fun e => e.2.2 != 0)

/-- `HashSet<Span>` equality: same size and every element of the first
contained in the second. -/
def spanSetEqB (s1 s2 : List Span) : Bool :=
  s1.length == s2.length && s1.all (fun x => s2.contains x)

/-- `HashMap` equality as used by `constraint.left != constraint.right`:
same size, and every key of the first present in the second with an equal
value. -/
def hashMapEqB (t1 t2 : Table) : Bool :=
  t1.length == t2.length &&
    t1.all (fun e =>
      match Table.lookup t2 e.1 with
      | some v => spanSetEqB e.2.1 v.1 && e.2.2 == v.2
      | none => false)

/-- The `UnitConstraints` record of one `unify` call site: the `left`
table for the source unit, the `right` table for the target unit, and the
call's span.  (The `tcx`/`def_id` fields carry no analysis state and are
represented by the global functions `Gen.defSpan`/`Gen.name`.) -/
structure UnitConstraints where
  left : Table
  right : Table
  span : Span
deriving DecidableEq

/-- `UnitConstraints::from`: both tables start empty. -/
def UnitConstraints.mkFrom (span : Span) : UnitConstraints :=
  { left := [], right := [], span := span }

/-- `UnitConstraints::add_one`: pick the table named by `left` and update
it. -/
def UnitConstraints.addOne (c : UnitConstraints) (g : Gen) (sp : Span)
    (left positive : Bool) : UnitConstraints :=
  if left then { c with left := Table.addOne c.left g sp positive }
  else { c with right := Table.addOne c.right g sp positive }

/-- Outcome of a call into `UnitConstraints::add`: `Ok(())` carrying the
updated record, `Err(())` (a `ty::TyError` was found), or a `panic!` (an
unexpected type shape was found). -/
inductive Res (α : Type) where
  | ok (a : α)
  | typeError
  | panicked
deriving DecidableEq

/-- Sequencing of `add` calls: the `?` operator propagates `Err`, a panic
propagates past everything. -/
def Res.bind : Res α → (α → Res β) → Res β
  | .ok a, f => f a
  | .typeError, _ => .typeError
  | .panicked, _ => .panicked

/-- `UnitConstraints::add`: recursively accumulate a type in unit position
into the table selected by `left`, with the current sign `positive`.
A `mul`-marked ADT recurses into both substs under the same sign, an
`inv`-marked ADT recurses under the opposite sign, a `dimensionless`
ADT contributes nothing, any other ADT and any type parameter are counted
by `add_one`, `TyError` yields `Err(())`, and any other shape panics. -/
def UnitConstraints.add (c : UnitConstraints) :
    UnitTy → Bool → Bool → Res UnitConstraints
  | .mul a b, left, positive =>
      (c.add a left positive).bind fun c1 => c1.add b left positive
  | .inv a, left, positive => c.add a left (!positive)
  | .dimensionless, _, _ => .ok c
  | .base id, left, positive =>
      .ok (c.addOne (.base id) (Gen.base id).defSpan left positive)
  | .param id, left, positive =>
      .ok (c.addOne (.param id) (Gen.param id).defSpan left positive)
  | .error, _, _ => .typeError
  | .other, _, _ => .panicked

/-- `UnitConstraints::simplify`: remove everything that has multiplicity 0
from both tables. -/
def UnitConstraints.simplify (c : UnitConstraints) : UnitConstraints :=
  { c with left := Table.simplify c.left, right := Table.simplify c.right }

/-- Outcome of `GatherConstraintsVisitor::add_unification` for one `unify`
call: a constraint was pushed (one diagnostic will be emitted for it), the
call was skipped silently, or the visitor panicked. -/
inductive UnifyOutcome where
  | pushed (c : UnitConstraints)
  | skipped
  | panicked
deriving DecidableEq

/-- `GatherConstraintsVisitor::add_unification`: build a fresh constraint,
add the source unit into `left` and the target unit into `right` (both
starting positive); on `Err` from either side return without recording
anything; otherwise simplify and push the constraint exactly when the two
tables differ. -/
def addUnification (l r : UnitTy) (span : Span) : UnifyOutcome :=
  match (UnitConstraints.mkFrom span).add l true true with
  | .typeError => .skipped
  | .panicked => .panicked
  | .ok c1 =>
    match c1.add r false true with
    | .typeError => .skipped
    | .panicked => .panicked
    | .ok c2 =>
      let c3 := c2.simplify
      if hashMapEqB c3.left c3.right then .skipped else .pushed c3

/-- One `unify` call site: `substs.type_at(1)` (the source unit `U`),
`substs.type_at(2)` (the target unit `V`) and the call's span. -/
abbrev UnifyCall := UnitTy × UnitTy × Span

/-- The visitor's processing of the sequence of method-syntax `unify`
call sites its traversal reaches (path-form `Measure::unify(..)` calls
and the contents of nested closure bodies are never reached — see
`ExprSite` and `visitSites`): call `add_unification` on each site in
order, collecting the pushed constraints; a panic aborts the traversal. -/
def gatherConstraints : List UnifyCall → Res (List UnitConstraints)
  | [] => .ok []
  | (l, r, sp) :: rest =>
    match addUnification l r sp with
    | .panicked => .panicked
    | .skipped => gatherConstraints rest
    | .pushed c =>
      match gatherConstraints rest with
      | .ok cs => .ok (c :: cs)
      | .typeError => .typeError
      | .panicked => .panicked

/-- `DimAnalyzer::analyze` over the list of method-syntax `unify` call
sites the visitor reaches: return (emitting nothing) when the typeck
tables are `tainted_by_errors`, when the item is a closure whose
`closure_base_def_id` differs from its own `def_id`, or when the primary
body has no `fn_decl`; otherwise run the gathering visitor and emit one
diagnostic per collected constraint. -/
def analyze (tainted isNestedClosure hasFnDecl : Bool)
    (body : List UnifyCall) : Res (List UnitConstraints) :=
  if tainted then .ok []
  else if isNestedClosure then .ok []
  else if hasFnDecl then gatherConstraints body
  else .ok []

/-- One expression site of a body, as `GatherConstraintsVisitor::visit_expr`
encounters it:
* `methodCall` — a `unify` invocation in method-call syntax
  (`hir::ExprMethodCall` whose callee carries
  `rustc_yaiouom_check_unify`); this is the only arm `visit_expr`
  handles;
* `pathCall` — a `unify` invocation in path form (`Measure::unify(x)`,
  an `ExprCall` whose callee is an `ExprPath`); `visit_expr` has no arm
  for it (the in-source comment records this case as unimplemented), so
  it falls into the catch-all `_ => {}`;
* `closure` — a closure expression: its body is a nested body, which the
  traversal never enters because `nested_visit_map` returns
  `NestedVisitorMap::None`. -/
inductive ExprSite where
  | methodCall (call : UnifyCall)
  | pathCall (call : UnifyCall)
  | closure (inner : List ExprSite)

/-- Every `unify` call site occurring in a body, including path-form
calls and calls inside nested closure bodies. -/
def allUnifyCalls : List ExprSite → List UnifyCall
  | [] => []
  | .methodCall c :: rest => c :: allUnifyCalls rest
  | .pathCall c :: rest => c :: allUnifyCalls rest
  | .closure inner :: rest => allUnifyCalls inner ++ allUnifyCalls rest

/-- The call sites `visit_expr` actually processes: method-syntax calls
only, never the contents of a nested closure body. -/
def methodCallsOf : List ExprSite → List UnifyCall
  | [] => []
  | .methodCall c :: rest => c :: methodCallsOf rest
  | .pathCall _ :: rest => methodCallsOf rest
  | .closure _ :: rest => methodCallsOf rest

/-- `GatherConstraintsVisitor`'s traversal over a body's expression
sites: `add_unification` on each method-syntax `unify` call; a path-form
call falls into the catch-all arm (nothing recorded); a closure's nested
body is not visited (`NestedVisitorMap::None`); a panic aborts the
traversal. -/
def visitSites : List ExprSite → Res (List UnitConstraints)
  | [] => .ok []
  | .methodCall (l, r, sp) :: rest =>
    match addUnification l r sp with
    | .panicked => .panicked
    | .skipped => visitSites rest
    | .pushed c =>
      match visitSites rest with
      | .ok cs => .ok (c :: cs)
      | .typeError => .typeError
      | .panicked => .panicked
  | .pathCall _ :: rest => visitSites rest
  | .closure _ :: rest => visitSites rest

/-- `DimAnalyzer::analyze` over a body's expression sites, with the same
gating as `analyze`: tainted tables, nested closures and bodies without a
fn-decl are skipped; otherwise the visitor traverses the sites. -/
def analyzeBody (tainted isNestedClosure hasFnDecl : Bool)
    (body : List ExprSite) : Res (List UnitConstraints) :=
  if tainted then .ok []
  else if isNestedClosure then .ok []
  else if hasFnDecl then visitSites body
  else .ok []

/-- `UnitConstraints::describe`'s loop over one table, with the `first`
flag: each entry renders as its name when the exponent is 1 and as
`name^exponent` otherwise, with `" * "` between consecutive entries.  The
table is traversed in the map's iteration order (embedded as the list
order). -/
def describeEntries : List (Gen × Entry) → Bool → String
  | [], _ => ""
  | e :: rest, first =>
    let name := Gen.name e.1
    let exp := if e.2.2 = 1 then "" else "^" ++ toString e.2.2
    (if first then "" else " * ") ++ name ++ exp ++ describeEntries rest false

/-- `UnitConstraints::describe`: render the table selected by `left`. -/
def UnitConstraints.describe (c : UnitConstraints) (left : Bool) : String :=
  describeEntries (if left then c.left else c.right) true

/-! ## The runtime unit library (`crates/yaiouom/src/unit.rs`) -/

/-- A compile-time unit type of the runtime library, i.e. a type
implementing the sealed trait `Unit`: a base unit (`impl<T: BaseUnit>
Unit for T`, identified by `TypeId::of::<T>()`), the product combinator
`Mul<A, B>`, the inverse combinator `Inv<A>`, or `Dimensionless`. -/
inductive RtUnit where
  | baseU (id : Nat)
  | mulU (a b : RtUnit)
  | invU (a : RtUnit)
  | dimensionlessU
deriving DecidableEq

/-- `T::NAME` of the base unit type with `TypeId` key `id`. -/
def baseName (id : Nat) : String := "b" ++ toString id

/-- `RuntimeUnit`: the runtime representation of a unit, a
`HashMap<TypeId, (String, i32)>` embedded as an association list. -/
structure RuntimeUnit where
  dimensions : List (Nat × String × Int)
deriving DecidableEq

/-- The entry update inside `add_to_runtime` for a base unit:
`repr.dimensions.entry(TypeId::of::<T>()).or_insert_with(|| (T::NAME.to_string(), 0))`
followed by `+= 1` or `-= 1`. -/
def dimsUpdate : List (Nat × String × Int) → Nat → String → Bool →
    List (Nat × String × Int)
  | [], id, name, positive =>
      [(id, name, if positive then 0 + 1 else 0 - 1)]
  | (id', v) :: rest, id, name, positive =>
      if id' = id then
        (id', v.1, if positive then v.2 + 1 else v.2 - 1) :: rest
      else
        (id', v) :: dimsUpdate rest id name positive

/-- `HashMap::get` on the dimensions map. -/
def dimsLookup : List (Nat × String × Int) → Nat → Option (String × Int)
  | [], _ => none
  | (id', v) :: rest, id => if id' = id then some v else dimsLookup rest id

/-- `HashMap::remove` on the dimensions map. -/
def dimsRemove (l : List (Nat × String × Int)) (id : Nat) :
    List (Nat × String × Int) :=
  l.filter (fun e => !(e.1 == id))

/-- `Unit::add_to_runtime` for a `BaseUnit` (`impl<T: BaseUnit> Unit for
T`): update the entry, then remove it when the updated exponent is 0. -/
def RuntimeUnit.addBaseUnit (r : RuntimeUnit) (id : Nat) (name : String)
    (positive : Bool) : RuntimeUnit :=
  let dims := dimsUpdate r.dimensions id name positive
  let isEmpty : Bool :=
    match dimsLookup dims id with
    | some v => v.2 == 0
    | none => false
  if isEmpty then { dimensions := dimsRemove dims id }
  else { dimensions := dims }

/-- `Unit::add_to_runtime`: base units update their entry; `Mul<A, B>`
adds `A` then `B` under the same position; `Inv<A>` adds `A` under the
negated position; `Dimensionless` does nothing. -/
def RtUnit.addToRuntime : RtUnit → RuntimeUnit → Bool → RuntimeUnit
  | .baseU id, r, positive => r.addBaseUnit id (baseName id) positive
  | .mulU a b, r, positive => b.addToRuntime (a.addToRuntime r positive) positive
  | .invU a, r, positive => a.addToRuntime r (!positive)
  | .dimensionlessU, r, _ => r

/-- `Unit::as_runtime`: add the unit to a fresh `RuntimeUnit` in positive
position. -/
def RtUnit.asRuntime (u : RtUnit) : RuntimeUnit :=
  u.addToRuntime { dimensions := [] } true

/-- `RuntimeUnit::to_string`: positives first (exponent 1 as the bare
name, exponent above 1 as `name^n`), then negatives (always `name^n`),
joined by `" * "`.  The `0 => panic!()` arms of the two `filter_map`s are
embedded as the `none` result. -/
def RuntimeUnit.toStringR (r : RuntimeUnit) : Option String :=
  if r.dimensions.any (fun e => e.2.2 == 0) then none
  else
    let positives := r.dimensions.filterMap (fun e =>
      if e.2.2 = 1 then some e.2.1
      else if e.2.2 > 1 then some (e.2.1 ++ "^" ++ toString e.2.2)
      else none)
    let negatives := r.dimensions.filterMap (fun e =>
      if e.2.2 ≤ -1 then some (e.2.1 ++ "^" ++ toString e.2.2)
      else none)
    some (String.intercalate " * " (positives ++ negatives))

/-- `Measure<T, U>`: a numeric value with a unit tag.  The Rust unit tag
is a phantom type; the embedding carries it as an explicit `RtUnit`
field. -/
structure Measure (T : Type) where
  value : T
  unit : RtUnit
deriving DecidableEq

/-- `impl Mul<Measure<T, V>> for Measure<T, U>`: output type
`Measure<T::Output, Mul<U, V>>`, output value `self.value * rhs.value`. -/
def Measure.mulM {T : Type} [Mul T] (a b : Measure T) : Measure T :=
  { value := a.value * b.value, unit := .mulU a.unit b.unit }

/-- `impl Div<Measure<T, V>> for Measure<T, U>`: output type
`Measure<T::Output, Mul<U, Inv<V>>>`, output value
`self.value / rhs.value`. -/
def Measure.divM {T : Type} [Div T] (a b : Measure T) : Measure T :=
  { value := a.value / b.value, unit := .mulU a.unit (.invU b.unit) }

/-- `Measure::unify::<V>`: rebuild the measure around the same `value`
with the unit tag replaced by the target unit `V`.  (In debug builds a
`debug_assert_eq!(U::as_runtime(), V::as_runtime())` panics instead of
returning when the units differ; whenever `unify` returns, it returns
this measure.) -/
def Measure.unify {T : Type} (m : Measure T) (target : RtUnit) : Measure T :=
  { value := m.value, unit := target }

/-! ## Derived definitions used to state the claims -/

/-- `UnitConstraints::add` restricted to a single table: the traversal of
one unit-expression that `add` performs on the table selected by its
`left` flag. -/
def Table.addTy (t : Table) : UnitTy → Bool → Res Table
  | .mul a b, positive =>
      (t.addTy a positive).bind fun t1 => t1.addTy b positive
  | .inv a, positive => t.addTy a (!positive)
  | .dimensionless, _ => .ok t
  | .base id, positive =>
      .ok (t.addOne (.base id) (Gen.base id).defSpan positive)
  | .param id, positive =>
      .ok (t.addOne (.param id) (Gen.param id).defSpan positive)
  | .error, _ => .typeError
  | .other, _ => .panicked

/-- The normalized form of one unit-expression: accumulate it positively
into an empty table, then drop zero exponents. -/
def normalize (ty : UnitTy) : Res Table :=
  match Table.addTy [] ty true with
  | .ok t => .ok (Table.simplify t)
  | .typeError => .typeError
  | .panicked => .panicked

/-- The signed exponent a unit-expression contributes to a generator
under a sign `s`: the free-abelian-group image of the expression. -/
def contrib : UnitTy → Int → Gen → Int
  | .mul a b, s, g => contrib a s g + contrib b s g
  | .inv a, s, g => contrib a (-s) g
  | .dimensionless, _, _ => 0
  | .base id, s, g => if g = .base id then s else 0
  | .param id, s, g => if g = .param id then s else 0
  | .error, _, _ => 0
  | .other, _, _ => 0

/-- A unit-expression the classifier fully handles: built from the
combinator and generator shapes only, with no erroneous or unexpected
type inside. -/
def classifiable : UnitTy → Bool
  | .mul a b => classifiable a && classifiable b
  | .inv a => classifiable a
  | .dimensionless => true
  | .base _ => true
  | .param _ => true
  | .error => false
  | .other => false

/-- A unit-expression containing no unexpected shape (but possibly
containing `TyError`). -/
def panicFree : UnitTy → Bool
  | .mul a b => panicFree a && panicFree b
  | .inv a => panicFree a
  | .dimensionless => true
  | .base _ => true
  | .param _ => true
  | .error => true
  | .other => false

/-- A unit-expression containing an erroneous type. -/
def hasError : UnitTy → Bool
  | .mul a b => hasError a || hasError b
  | .inv a => hasError a
  | .dimensionless => false
  | .base _ => false
  | .param _ => false
  | .error => true
  | .other => false

/-- The generator leaves occurring in a unit-expression. -/
def occursB : UnitTy → Gen → Bool
  | .mul a b, g => occursB a g || occursB b g
  | .inv a, g => occursB a g
  | .dimensionless, _ => false
  | .base id, g => g == .base id
  | .param id, g => g == .param id
  | .error, _ => false
  | .other, _ => false

/-- The sign threaded by the `positive` flag. -/
def signOf (b : Bool) : Int := if b then 1 else -1

/-- The exponent a table records for a generator (0 when absent). -/
def Table.expOf (t : Table) (g : Gen) : Int :=
  match Table.lookup t g with
  | some v => v.2
  | none => 0

/-- The generator assigned to a generator-shaped unit-expression. -/
def genTy : Gen → UnitTy
  | .base id => .base id
  | .param id => .param id

/-- Normalized-form equality as the checker decides it: both sides
classifiable and the two normalized tables equal as hash maps. -/
def normEqB (l r : UnitTy) : Bool :=
  match normalize l, normalize r with
  | .ok t1, .ok t2 => hashMapEqB t1 t2
  | _, _ => false

/-- A sound `unify` call: source and target normalize to equal forms. -/
def soundCall (call : UnifyCall) : Bool :=
  normEqB call.1 call.2.1

/-- No entry of the table carries exponent 0. -/
def noZeroExp (t : Table) : Bool :=
  t.all (fun e => e.2.2 != 0)

/-- The tables an outcome's diagnostic would render carry no zero
exponent. -/
def outcomeNoZeros : UnifyOutcome → Bool
  | .pushed c => noZeroExp c.left && noZeroExp c.right
  | .skipped => true
  | .panicked => true

/-- In the table's iteration order, every positive-exponent entry precedes
every negative-exponent entry. -/
def posBeforeNeg (t : Table) : Bool :=
  (t.dropWhile (fun e => e.2.2 > 0)).all (fun e => e.2.2 < 0)

/-- The rendering the spec describes: fragments joined by `" * "`. -/
def renderSpec : List String → String
  | [] => ""
  | [x] => x
  | x :: y :: rest => x ++ " * " ++ renderSpec (y :: rest)

/-- The fragment the spec describes for one entry: the name when the
exponent is 1, `name^exponent` otherwise. -/
def fragmentSpec (e : Gen × Entry) : String :=
  Gen.name e.1 ++ (if e.2.2 = 1 then "" else "^" ++ toString e.2.2)

/-- No entry of a runtime unit carries exponent 0. -/
def noZeroRt (r : RuntimeUnit) : Bool :=
  r.dimensions.all (fun e => e.2.2 != 0)

/-- The keys of a constraint table. -/
def Table.keys (t : Table) : List Gen := t.map Prod.fst

/-- The span set of an optional entry (empty when absent). -/
def spansOf (o : Option Entry) : List Span := (o.map Prod.fst).getD []

/-- The exponent of an optional entry (0 when absent). -/
def expOfOpt (o : Option Entry) : Int := (o.map Prod.snd).getD 0

/-- Every entry of a table carries exactly the defining span of its key,
as `add_one` always inserts `tcx.def_span` of the key's definition. -/
def SpanInv (t : Table) : Prop := ∀ e ∈ t, e.2.1 = [e.1.defSpan]

/-! ## Table lemmas -/

theorem insertSpan_idem (s : Span) (l : List Span) :
    insertSpan s (insertSpan s l) = insertSpan s l := by
  by_cases h : s ∈ l <;> simp [insertSpan, h]

theorem insertSpan_self (s : Span) : insertSpan s [s] = [s] := by
  simp [insertSpan]

theorem signCombine (pos : Bool) (n : Int) :
    (if pos then n + 1 else n - 1) = n + signOf pos := by
  cases pos
  · simp [signOf, sub_eq_add_neg]
  · simp [signOf]

theorem lookup_addOne (t : Table) (g g' : Gen) (sp : Span) (pos : Bool) :
    Table.lookup (Table.addOne t g sp pos) g' =
      if g' = g then
        some (insertSpan sp (spansOf (Table.lookup t g)),
              expOfOpt (Table.lookup t g) + signOf pos)
      else Table.lookup t g' := by
  induction t with
  | nil =>
      by_cases h : g' = g
      · subst h
        simp [Table.addOne, Table.lookup, spansOf, expOfOpt, signCombine, signOf]
      · have h' : ¬ g = g' := fun he => h he.symm
        simp [Table.addOne, Table.lookup, h, h']
  | cons e rest ih =>
      obtain ⟨k, v⟩ := e
      by_cases hk : k = g
      · subst hk
        by_cases h : g' = k
        · subst h
          simp [Table.addOne, Table.lookup, spansOf, expOfOpt, signCombine]
        · have h' : ¬ k = g' := fun he => h he.symm
          simp [Table.addOne, Table.lookup, h, h']
      · by_cases h : g' = k
        · subst h
          simp [Table.addOne, Table.lookup, hk]
        · have h' : ¬ k = g' := fun he => h he.symm
          simp only [Table.addOne, if_neg hk, Table.lookup, if_neg h']
          rw [ih]

theorem keys_addOne (t : Table) (g : Gen) (sp : Span) (pos : Bool) :
    Table.keys (Table.addOne t g sp pos) =
      if g ∈ Table.keys t then Table.keys t else Table.keys t ++ [g] := by
  induction t with
  | nil => simp [Table.addOne, Table.keys]
  | cons e rest ih =>
      obtain ⟨k, v⟩ := e
      by_cases hk : k = g
      · subst hk
        simp [Table.addOne, Table.keys]
      · have hgk : ¬ g = k := fun h => hk h.symm
        simp only [Table.addOne, if_neg hk, Table.keys, List.map_cons] at ih ⊢
        rw [ih]
        by_cases hm : g ∈ List.map Prod.fst rest <;>
          simp [hm, hgk, List.mem_cons]

theorem lookup_isSome_iff (t : Table) (g : Gen) :
    (Table.lookup t g).isSome = true ↔ g ∈ Table.keys t := by
  induction t with
  | nil => simp [Table.lookup, Table.keys]
  | cons e rest ih =>
      obtain ⟨k, v⟩ := e
      by_cases h : k = g
      · subst h; simp [Table.lookup, Table.keys]
      · have h' : ¬ g = k := fun he => h he.symm
        simp [Table.lookup, Table.keys, h, h', ih]

theorem lookup_eq_none_of_not_mem {t : Table} {g : Gen}
    (h : g ∉ Table.keys t) : Table.lookup t g = none := by
  cases hl : Table.lookup t g with
  | none => rfl
  | some v =>
      exact absurd ((lookup_isSome_iff t g).1 (by simp [hl])) h

theorem mem_of_lookup_eq_some {t : Table} {g : Gen} {v : Entry}
    (h : Table.lookup t g = some v) : (g, v) ∈ t := by
  induction t with
  | nil => simp [Table.lookup] at h
  | cons e rest ih =>
      obtain ⟨k, w⟩ := e
      by_cases hk : k = g
      · subst hk
        simp [Table.lookup] at h
        simp [h]
      · simp [Table.lookup, hk] at h
        exact List.mem_cons_of_mem _ (ih h)

theorem lookup_eq_some_of_mem (t : Table) {g : Gen} {v : Entry} :
    (Table.keys t).Nodup → (g, v) ∈ t → Table.lookup t g = some v := by
  induction t with
  | nil => intro _ h; simp at h
  | cons e rest ih =>
      intro hnd h
      obtain ⟨k, w⟩ := e
      have hnd' := hnd
      rw [show Table.keys ((k, w) :: rest) = k :: Table.keys rest from rfl,
        List.nodup_cons] at hnd'
      rcases List.mem_cons.1 h with he | hm
      · rw [Prod.mk.injEq] at he
        obtain ⟨h1, h2⟩ := he
        subst h1; subst h2
        simp [Table.lookup]
      · have hk : ¬ k = g := by
          intro hkg; subst hkg
          exact hnd'.1 (List.mem_map_of_mem Prod.fst hm)
        simp [Table.lookup, hk]
        exact ih hnd'.2 hm

theorem spanInv_addOne {t : Table} (hs : SpanInv t) (g : Gen) (pos : Bool) :
    SpanInv (Table.addOne t g g.defSpan pos) := by
  induction t with
  | nil =>
      intro e he
      simp [Table.addOne, insertSpan] at he
      subst he
      rfl
  | cons hd rest ih =>
      obtain ⟨k, v⟩ := hd
      have hk_inv : v.1 = [k.defSpan] := hs (k, v) (List.mem_cons_self _ _)
      have hrest : SpanInv rest := fun e he => hs e (List.mem_cons_of_mem _ he)
      by_cases hk : k = g
      · subst hk
        intro e he
        simp [Table.addOne] at he
        rcases he with he | he
        · subst he
          show insertSpan k.defSpan v.1 = [k.defSpan]
          rw [hk_inv, insertSpan_self]
        · exact hrest e he
      · intro e he
        simp [Table.addOne, hk] at he
        rcases he with he | he
        · subst he
          exact hk_inv
        · exact ih hrest e he

theorem nodup_keys_addOne {t : Table} (hnd : (Table.keys t).Nodup)
    (g : Gen) (sp : Span) (pos : Bool) :
    (Table.keys (Table.addOne t g sp pos)).Nodup := by
  rw [keys_addOne]
  by_cases hm : g ∈ Table.keys t
  · simp [hm, hnd]
  · simp only [hm, if_false]
    rw [List.nodup_append]
    exact ⟨hnd, List.nodup_singleton g, by
      intro x hx hxg
      rw [List.mem_singleton] at hxg
      subst hxg
      exact hm hx⟩

theorem keys_simplify_sublist (t : Table) :
    List.Sublist (Table.keys (Table.simplify t)) (Table.keys t) :=
  List.Sublist.map Prod.fst (List.filter_sublist t)

theorem nodup_keys_simplify {t : Table} (hnd : (Table.keys t).Nodup) :
    (Table.keys (Table.simplify t)).Nodup :=
  hnd.sublist (keys_simplify_sublist t)

theorem spanInv_simplify {t : Table} (hs : SpanInv t) :
    SpanInv (Table.simplify t) :=
  fun e he => hs e (List.mem_of_mem_filter he)

theorem lookup_simplify (t : Table) (g : Gen) :
    (Table.keys t).Nodup →
    Table.lookup (Table.simplify t) g =
      match Table.lookup t g with
      | some v => if v.2 = 0 then none else some v
      | none => none := by
  induction t with
  | nil => intro _; simp [Table.simplify, Table.lookup]
  | cons e rest ih =>
      intro hnd
      obtain ⟨k, v⟩ := e
      rw [show Table.keys ((k, v) :: rest) = k :: Table.keys rest from rfl,
        List.nodup_cons] at hnd
      by_cases hk : k = g
      · subst hk
        by_cases hv : v.2 = 0
        · have hv' : (v.2 != 0) = false := by simp [hv]
          have hnone : Table.lookup (Table.simplify rest) k = none := by
            apply lookup_eq_none_of_not_mem
            intro hmem
            exact hnd.1 ((keys_simplify_sublist rest).subset hmem)
          have hfil : Table.simplify ((k, v) :: rest) = Table.simplify rest := by
            simp [Table.simplify, List.filter_cons, hv']
          rw [hfil, hnone]
          simp [Table.lookup, hv]
        · have hv' : (v.2 != 0) = true := by simp [hv]
          have hfil : Table.simplify ((k, v) :: rest) =
              (k, v) :: Table.simplify rest := by
            simp [Table.simplify, List.filter_cons, hv']
          rw [hfil]
          simp [Table.lookup, hv]
      · have hfil2 : Table.lookup (Table.simplify ((k, v) :: rest)) g =
            Table.lookup (Table.simplify rest) g := by
          by_cases hv : (v.2 != 0) = true
          · have hfil : Table.simplify ((k, v) :: rest) =
                (k, v) :: Table.simplify rest := by
              simp [Table.simplify, List.filter_cons, hv]
            rw [hfil]
            simp [Table.lookup, hk]
          · rw [Bool.not_eq_true] at hv
            have hfil : Table.simplify ((k, v) :: rest) = Table.simplify rest := by
              simp [Table.simplify, List.filter_cons, hv]
            rw [hfil]
        rw [hfil2, ih hnd.2]
        simp [Table.lookup, hk]

/-! ## Normalizer lemmas -/

theorem signOf_not (pos : Bool) : signOf (!pos) = -(signOf pos) := by
  cases pos <;> simp [signOf]

theorem contrib_eq_zero_of_not_occurs (ty : UnitTy) (g : Gen) :
    ∀ s : Int, occursB ty g = false → contrib ty s g = 0 := by
  induction ty with
  | mul a b iha ihb =>
      intro s h
      rw [show occursB (.mul a b) g = (occursB a g || occursB b g) from rfl,
        Bool.or_eq_false_iff] at h
      simp [contrib, iha s h.1, ihb s h.2]
  | inv a iha =>
      intro s h
      rw [show occursB (.inv a) g = occursB a g from rfl] at h
      simp [contrib, iha (-s) h]
  | dimensionless => intro s _; rfl
  | base id =>
      intro s h
      simp [occursB] at h
      simp [contrib, h]
  | param id =>
      intro s h
      simp [occursB] at h
      simp [contrib, h]
  | error => intro s _; rfl
  | other => intro s _; rfl

theorem addTy_ok_of_classifiable (ty : UnitTy) :
    classifiable ty = true →
    ∀ (t : Table) (pos : Bool),
      ∃ t', Table.addTy t ty pos = .ok t' ∧
        ∀ g : Gen,
          Table.lookup t' g =
            if occursB ty g then
              some (insertSpan g.defSpan (spansOf (Table.lookup t g)),
                    expOfOpt (Table.lookup t g) + contrib ty (signOf pos) g)
            else Table.lookup t g := by
  induction ty with
  | mul a b iha ihb =>
      intro hc t pos
      rw [show classifiable (.mul a b) = (classifiable a && classifiable b)
        from rfl, Bool.and_eq_true] at hc
      obtain ⟨t1, h1, hl1⟩ := iha hc.1 t pos
      obtain ⟨t2, h2, hl2⟩ := ihb hc.2 t1 pos
      refine ⟨t2, ?_, ?_⟩
      · show (Table.addTy t a pos).bind (fun t1 => Table.addTy t1 b pos) = .ok t2
        rw [h1]
        exact h2
      · intro g
        rw [hl2 g, hl1 g]
        have hca := contrib_eq_zero_of_not_occurs a g (signOf pos)
        have hcb := contrib_eq_zero_of_not_occurs b g (signOf pos)
        cases ha : occursB a g <;> cases hb : occursB b g <;>
          simp [occursB, contrib, ha, hb, hca, hcb, spansOf, expOfOpt,
            insertSpan_idem, add_assoc]
  | inv a iha =>
      intro hc t pos
      rw [show classifiable (.inv a) = classifiable a from rfl] at hc
      obtain ⟨t', h1, hl⟩ := iha hc t (!pos)
      refine ⟨t', h1, ?_⟩
      intro g
      rw [hl g]
      simp [occursB, contrib, signOf_not]
  | dimensionless =>
      intro _ t pos
      exact ⟨t, rfl, fun g => by simp [occursB]⟩
  | base id =>
      intro _ t pos
      refine ⟨Table.addOne t (.base id) (Gen.base id).defSpan pos, rfl, ?_⟩
      intro g
      rw [lookup_addOne]
      by_cases h : g = Gen.base id
      · subst h
        simp [occursB, contrib]
      · simp [occursB, contrib, h]
  | param id =>
      intro _ t pos
      refine ⟨Table.addOne t (.param id) (Gen.param id).defSpan pos, rfl, ?_⟩
      intro g
      rw [lookup_addOne]
      by_cases h : g = Gen.param id
      · subst h
        simp [occursB, contrib]
      · simp [occursB, contrib, h]
  | error => intro hc; simp [classifiable] at hc
  | other => intro hc; simp [classifiable] at hc

theorem addTy_preserves_invariants (ty : UnitTy) :
    ∀ (t : Table) (pos : Bool) (t' : Table),
      Table.addTy t ty pos = .ok t' →
      ((Table.keys t).Nodup → (Table.keys t').Nodup) ∧
      (SpanInv t → SpanInv t') := by
  induction ty with
  | mul a b iha ihb =>
      intro t pos t' h
      rw [show Table.addTy t (.mul a b) pos
        = (Table.addTy t a pos).bind (fun t1 => Table.addTy t1 b pos) from rfl] at h
      cases h1 : Table.addTy t a pos with
      | ok t1 =>
          rw [h1] at h
          have h2 : Table.addTy t1 b pos = .ok t' := h
          obtain ⟨n1, s1⟩ := iha t pos t1 h1
          obtain ⟨n2, s2⟩ := ihb t1 pos t' h2
          exact ⟨fun hn => n2 (n1 hn), fun hs => s2 (s1 hs)⟩
      | typeError => rw [h1] at h; cases h
      | panicked => rw [h1] at h; cases h
  | inv a iha =>
      intro t pos t' h
      exact iha t (!pos) t' h
  | dimensionless =>
      intro t pos t' h
      cases h
      exact ⟨id, id⟩
  | base id =>
      intro t pos t' h
      cases h
      exact ⟨fun hn => nodup_keys_addOne hn _ _ _, fun hs => spanInv_addOne hs _ _⟩
  | param id =>
      intro t pos t' h
      cases h
      exact ⟨fun hn => nodup_keys_addOne hn _ _ _, fun hs => spanInv_addOne hs _ _⟩
  | error => intro t pos t' h; cases h
  | other => intro t pos t' h; cases h

theorem normalize_char (ty : UnitTy) (hc : classifiable ty = true) :
    ∃ t, normalize ty = .ok t ∧ (Table.keys t).Nodup ∧ SpanInv t ∧
      ∀ g : Gen, Table.lookup t g =
        if contrib ty 1 g = 0 then none
        else some ([g.defSpan], contrib ty 1 g) := by
  obtain ⟨t0, h0, hl⟩ := addTy_ok_of_classifiable ty hc [] true
  obtain ⟨hn0, hs0⟩ := addTy_preserves_invariants ty [] true t0 h0
  have hnd0 : (Table.keys t0).Nodup := hn0 (by simp [Table.keys])
  have hsi0 : SpanInv t0 := hs0 (by intro e he; simp at he)
  refine ⟨Table.simplify t0, ?_, nodup_keys_simplify hnd0,
    spanInv_simplify hsi0, ?_⟩
  · rw [show normalize ty = (match Table.addTy [] ty true with
      | .ok t => .ok (Table.simplify t)
      | .typeError => .typeError
      | .panicked => .panicked) from rfl, h0]
  · intro g
    rw [lookup_simplify t0 g hnd0]
    have hg := hl g
    rw [show Table.lookup ([] : Table) g = none from rfl] at hg
    rw [show signOf true = 1 from rfl] at hg
    simp only [spansOf, expOfOpt, Option.map_none', Option.getD_none] at hg
    rw [show insertSpan g.defSpan [] = [g.defSpan] from by simp [insertSpan]] at hg
    cases ho : occursB ty g
    · rw [ho] at hg
      simp only [Bool.false_eq_true, if_false] at hg
      have hz : contrib ty 1 g = 0 :=
        contrib_eq_zero_of_not_occurs ty g 1 ho
      rw [hg, hz]
      simp
    · rw [ho] at hg
      simp only [if_true] at hg
      rw [hg]
      by_cases hz : contrib ty 1 g = 0
      · simp [hz]
      · simp [hz]

/-! ## HashMap equality lemmas -/

theorem spanSetEqB_refl (s : List Span) : spanSetEqB s s = true := by
  rw [spanSetEqB, Bool.and_eq_true, List.all_eq_true]
  exact ⟨by simp, fun x hx => by simpa using hx⟩

theorem length_keys (t : Table) : (Table.keys t).length = t.length := by
  simp [Table.keys]

theorem hashMapEqB_eq_true_iff {t1 t2 : Table}
    (h1 : (Table.keys t1).Nodup) (h2 : (Table.keys t2).Nodup)
    (s1 : SpanInv t1) (s2 : SpanInv t2) :
    hashMapEqB t1 t2 = true ↔ ∀ g, Table.lookup t1 g = Table.lookup t2 g := by
  constructor
  · intro h
    rw [hashMapEqB, Bool.and_eq_true, List.all_eq_true] at h
    obtain ⟨hlen, hall⟩ := h
    have hlen' : t1.length = t2.length := by simpa using hlen
    have hsub : ∀ g ∈ Table.keys t1, g ∈ Table.keys t2 := by
      intro g hg
      obtain ⟨e, he, heq⟩ := List.mem_map.1 hg
      have := hall e he
      cases hl2 : Table.lookup t2 e.1 with
      | none => rw [hl2] at this; simp at this
      | some w =>
          rw [← heq]
          exact (lookup_isSome_iff t2 e.1).1 (by simp [hl2])
    have hkeys : ∀ g, g ∈ Table.keys t1 ↔ g ∈ Table.keys t2 := by
      have hc1 : (Table.keys t1).toFinset.card = (Table.keys t1).length :=
        List.toFinset_card_of_nodup h1
      have hc2 : (Table.keys t2).toFinset.card = (Table.keys t2).length :=
        List.toFinset_card_of_nodup h2
      have hsub' : (Table.keys t1).toFinset ⊆ (Table.keys t2).toFinset := by
        intro g hg
        rw [List.mem_toFinset] at hg ⊢
        exact hsub g hg
      have heqf : (Table.keys t1).toFinset = (Table.keys t2).toFinset := by
        apply Finset.eq_of_subset_of_card_le hsub'
        rw [hc1, hc2, length_keys, length_keys, hlen']
      intro g
      rw [← List.mem_toFinset, ← List.mem_toFinset, heqf]
    intro g
    by_cases hg : g ∈ Table.keys t1
    · obtain ⟨e, he, heq⟩ := List.mem_map.1 hg
      obtain ⟨k, v⟩ := e
      simp only at heq
      subst heq
      have hv1 : Table.lookup t1 k = some v := lookup_eq_some_of_mem t1 h1 he
      have := hall (k, v) he
      cases hl2 : Table.lookup t2 k with
      | none => rw [hl2] at this; simp at this
      | some w =>
          rw [hl2] at this
          rw [Bool.and_eq_true] at this
          have hexp : v.2 = w.2 := by
            have := this.2
            simpa using this
          have hsp1 : v.1 = [Gen.defSpan k] := s1 (k, v) he
          have hsp2 : w.1 = [Gen.defSpan k] := s2 (k, w) (mem_of_lookup_eq_some hl2)
          have hvw : v = w := by
            obtain ⟨va, vb⟩ := v
            obtain ⟨wa, wb⟩ := w
            simp only at hexp hsp1 hsp2
            rw [Prod.mk.injEq]
            exact ⟨hsp1.trans hsp2.symm, hexp⟩
          rw [hv1, hvw]
    · have hg2 : g ∉ Table.keys t2 := fun hx => hg ((hkeys g).2 hx)
      rw [lookup_eq_none_of_not_mem hg, lookup_eq_none_of_not_mem hg2]
  · intro h
    rw [hashMapEqB, Bool.and_eq_true, List.all_eq_true]
    have hkeys : ∀ g, g ∈ Table.keys t1 ↔ g ∈ Table.keys t2 := by
      intro g
      rw [← lookup_isSome_iff, ← lookup_isSome_iff, h g]
    constructor
    · have heqf : (Table.keys t1).toFinset = (Table.keys t2).toFinset := by
        ext g
        rw [List.mem_toFinset, List.mem_toFinset]
        exact hkeys g
      have hc1 : (Table.keys t1).toFinset.card = (Table.keys t1).length :=
        List.toFinset_card_of_nodup h1
      have hc2 : (Table.keys t2).toFinset.card = (Table.keys t2).length :=
        List.toFinset_card_of_nodup h2
      have : t1.length = t2.length := by
        rw [← length_keys, ← length_keys, ← hc1, ← hc2, heqf]
      simpa using this
    · intro e he
      obtain ⟨k, v⟩ := e
      have hv1 : Table.lookup t1 k = some v := lookup_eq_some_of_mem t1 h1 he
      rw [← h k, hv1]
      simp [spanSetEqB_refl]

/-! ## Bridging `UnitConstraints::add` to the single-table traversal -/

theorem constraintsAdd_eq (ty : UnitTy) :
    ∀ (c : UnitConstraints) (left positive : Bool),
      c.add ty left positive =
        match Table.addTy (if left then c.left else c.right) ty positive with
        | .ok t => .ok (if left then { c with left := t } else { c with right := t })
        | .typeError => .typeError
        | .panicked => .panicked := by
  induction ty with
  | mul a b iha ihb =>
      intro c left positive
      show (c.add a left positive).bind (fun c1 => c1.add b left positive) = _
      rw [iha c left positive]
      show (match Table.addTy (if left then c.left else c.right) a positive with
        | .ok t => Res.ok (if left then { c with left := t } else { c with right := t })
        | .typeError => .typeError
        | .panicked => .panicked).bind (fun c1 => c1.add b left positive) = _
      cases h1 : Table.addTy (if left then c.left else c.right) a positive with
      | ok t1 =>
          cases left
          · simp only [Bool.false_eq_true, if_false] at h1 ⊢
            rw [show Table.addTy c.right (UnitTy.mul a b) positive
              = (Table.addTy c.right a positive).bind
                  (fun t => Table.addTy t b positive) from rfl, h1]
            show ({ c with right := t1 } : UnitConstraints).add b false positive = _
            rw [ihb { c with right := t1 } false positive]
            rfl
          · simp only [if_true] at h1 ⊢
            rw [show Table.addTy c.left (UnitTy.mul a b) positive
              = (Table.addTy c.left a positive).bind
                  (fun t => Table.addTy t b positive) from rfl, h1]
            show ({ c with left := t1 } : UnitConstraints).add b true positive = _
            rw [ihb { c with left := t1 } true positive]
            rfl
      | typeError =>
          rw [show Table.addTy (if left then c.left else c.right)
            (UnitTy.mul a b) positive
            = (Table.addTy (if left then c.left else c.right) a positive).bind
                (fun t => Table.addTy t b positive) from rfl, h1]
          rfl
      | panicked =>
          rw [show Table.addTy (if left then c.left else c.right)
            (UnitTy.mul a b) positive
            = (Table.addTy (if left then c.left else c.right) a positive).bind
                (fun t => Table.addTy t b positive) from rfl, h1]
          rfl
  | inv a iha =>
      intro c left positive
      exact iha c left (!positive)
  | dimensionless =>
      intro c left positive
      cases left <;> rfl
  | base id =>
      intro c left positive
      cases left <;> rfl
  | param id =>
      intro c left positive
      cases left <;> rfl
  | error =>
      intro c left positive
      rfl
  | other =>
      intro c left positive
      rfl

/-! ## `add_unification` characterization -/

theorem addUnification_step1_ok {l r : UnitTy} {sp : Span} {c1 : UnitConstraints}
    (h : (UnitConstraints.mkFrom sp).add l true true = .ok c1) :
    addUnification l r sp =
      (match c1.add r false true with
      | .typeError => .skipped
      | .panicked => .panicked
      | .ok c2 =>
        if hashMapEqB c2.simplify.left c2.simplify.right then .skipped
        else .pushed c2.simplify) := by
  rw [show addUnification l r sp =
    (match (UnitConstraints.mkFrom sp).add l true true with
    | .typeError => .skipped
    | .panicked => .panicked
    | .ok c1 =>
      match c1.add r false true with
      | .typeError => .skipped
      | .panicked => .panicked
      | .ok c2 =>
        let c3 := c2.simplify
        if hashMapEqB c3.left c3.right then .skipped
        else .pushed c3) from rfl, h]

theorem addUnification_step1_typeError {l r : UnitTy} {sp : Span}
    (h : (UnitConstraints.mkFrom sp).add l true true = .typeError) :
    addUnification l r sp = .skipped := by
  rw [show addUnification l r sp =
    (match (UnitConstraints.mkFrom sp).add l true true with
    | .typeError => .skipped
    | .panicked => .panicked
    | .ok c1 =>
      match c1.add r false true with
      | .typeError => .skipped
      | .panicked => .panicked
      | .ok c2 =>
        let c3 := c2.simplify
        if hashMapEqB c3.left c3.right then .skipped
        else .pushed c3) from rfl, h]

theorem addUnification_eq (l r : UnitTy) (sp : Span)
    (hl : classifiable l = true) (hr : classifiable r = true) :
    ∃ tL tR, normalize l = .ok tL ∧ normalize r = .ok tR ∧
      addUnification l r sp =
        (if hashMapEqB tL tR then .skipped
         else .pushed { left := tL, right := tR, span := sp }) := by
  obtain ⟨tL0, hL0, _⟩ := addTy_ok_of_classifiable l hl [] true
  obtain ⟨tR0, hR0, _⟩ := addTy_ok_of_classifiable r hr [] true
  refine ⟨Table.simplify tL0, Table.simplify tR0, ?_, ?_, ?_⟩
  · rw [show normalize l = (match Table.addTy [] l true with
      | .ok t => .ok (Table.simplify t)
      | .typeError => .typeError
      | .panicked => .panicked) from rfl, hL0]
  · rw [show normalize r = (match Table.addTy [] r true with
      | .ok t => .ok (Table.simplify t)
      | .typeError => .typeError
      | .panicked => .panicked) from rfl, hR0]
  · have s1 : (UnitConstraints.mkFrom sp).add l true true =
        .ok { left := tL0, right := [], span := sp } := by
      rw [constraintsAdd_eq l (UnitConstraints.mkFrom sp) true true]
      rw [show (if true then (UnitConstraints.mkFrom sp).left
        else (UnitConstraints.mkFrom sp).right) = ([] : Table) from rfl, hL0]
      rfl
    have s2 : ({ left := tL0, right := [], span := sp } :
        UnitConstraints).add r false true =
        .ok { left := tL0, right := tR0, span := sp } := by
      rw [constraintsAdd_eq r { left := tL0, right := [], span := sp } false true]
      rw [show (if false then
        ({ left := tL0, right := [], span := sp } : UnitConstraints).left
        else ({ left := tL0, right := [], span := sp } :
          UnitConstraints).right) = ([] : Table) from rfl, hR0]
      rfl
    rw [addUnification_step1_ok s1, s2]
    rfl

theorem addUnification_skipped_iff (l r : UnitTy) (sp : Span)
    (hl : classifiable l = true) (hr : classifiable r = true) :
    addUnification l r sp = .skipped ↔ normEqB l r = true := by
  obtain ⟨tL, tR, hnl, hnr, heq⟩ := addUnification_eq l r sp hl hr
  rw [heq, normEqB, hnl, hnr]
  by_cases hb : hashMapEqB tL tR = true
  · simp [hb]
  · rw [Bool.not_eq_true] at hb
    simp [hb]

theorem addUnification_pushed_iff (l r : UnitTy) (sp : Span)
    (hl : classifiable l = true) (hr : classifiable r = true) :
    (∃ c, addUnification l r sp = .pushed c) ↔ normEqB l r = false := by
  obtain ⟨tL, tR, hnl, hnr, heq⟩ := addUnification_eq l r sp hl hr
  rw [heq, normEqB, hnl, hnr]
  by_cases hb : hashMapEqB tL tR = true
  · simp [hb]
  · rw [Bool.not_eq_true] at hb
    simp [hb]

/-! ## Error handling lemmas -/

theorem addTy_of_panicFree (ty : UnitTy) :
    panicFree ty = true →
    ∀ (t : Table) (pos : Bool),
      if hasError ty then Table.addTy t ty pos = .typeError
      else ∃ t', Table.addTy t ty pos = .ok t' := by
  induction ty with
  | mul a b iha ihb =>
      intro hp t pos
      rw [show panicFree (.mul a b) = (panicFree a && panicFree b) from rfl,
        Bool.and_eq_true] at hp
      have ha := iha hp.1 t pos
      rw [show hasError (.mul a b) = (hasError a || hasError b) from rfl]
      cases hea : hasError a
      · rw [hea] at ha
        simp only [Bool.false_eq_true, if_false] at ha
        obtain ⟨t1, h1⟩ := ha
        have hb := ihb hp.2 t1 pos
        cases heb : hasError b
        · rw [heb] at hb
          simp only [Bool.false_eq_true, if_false] at hb
          obtain ⟨t2, h2⟩ := hb
          simp only [Bool.or_self, Bool.false_eq_true, if_false]
          exact ⟨t2, by
            show (Table.addTy t a pos).bind (fun x => Table.addTy x b pos) = .ok t2
            rw [h1]
            exact h2⟩
        · rw [heb] at hb
          simp only [if_true] at hb
          simp only [Bool.or_true, if_true]
          show (Table.addTy t a pos).bind (fun x => Table.addTy x b pos) = .typeError
          rw [h1]
          exact hb
      · rw [hea] at ha
        simp only [if_true] at ha
        simp only [Bool.true_or, if_true]
        show (Table.addTy t a pos).bind (fun x => Table.addTy x b pos) = .typeError
        rw [ha]
        rfl
  | inv a iha =>
      intro hp t pos
      rw [show panicFree (.inv a) = panicFree a from rfl] at hp
      have := iha hp t (!pos)
      rw [show hasError (.inv a) = hasError a from rfl]
      exact this
  | dimensionless =>
      intro _ t pos
      exact ⟨t, rfl⟩
  | base id =>
      intro _ t pos
      exact ⟨_, rfl⟩
  | param id =>
      intro _ t pos
      exact ⟨_, rfl⟩
  | error =>
      intro _ t pos
      rfl
  | other =>
      intro hp
      simp [panicFree] at hp

theorem addUnification_skipped_of_error (l r : UnitTy) (sp : Span)
    (hpl : panicFree l = true) (hpr : panicFree r = true)
    (he : hasError l = true ∨ hasError r = true) :
    addUnification l r sp = .skipped := by
  have hadd : ∀ (c : UnitConstraints) (left : Bool),
      (hasError l = true → c.add l left true = .typeError) ∧
      (hasError l = false → ∃ c', c.add l left true = .ok c') := by
    intro c left
    have := addTy_of_panicFree l hpl (if left then c.left else c.right) true
    constructor
    · intro hel
      rw [hel] at this
      simp only [if_true] at this
      rw [constraintsAdd_eq l c left true, this]
    · intro hel
      rw [hel] at this
      simp only [Bool.false_eq_true, if_false] at this
      obtain ⟨t', ht'⟩ := this
      rw [constraintsAdd_eq l c left true, ht']
      exact ⟨_, rfl⟩
  cases hel : hasError l
  · have her : hasError r = true := by
      rcases he with h | h
      · rw [hel] at h; cases h
      · exact h
    obtain ⟨c1, hc1⟩ := (hadd (UnitConstraints.mkFrom sp) true).2 hel
    have hr2 : c1.add r false true = .typeError := by
      have := addTy_of_panicFree r hpr (if false then c1.left else c1.right) true
      rw [her] at this
      simp only [if_true] at this
      rw [constraintsAdd_eq r c1 false true, this]
    rw [addUnification_step1_ok hc1, hr2]
  · have h1 := (hadd (UnitConstraints.mkFrom sp) true).1 hel
    exact addUnification_step1_typeError h1

/-! ## Body-level lemmas -/

theorem gather_char (body : List UnifyCall) :
    (∀ call ∈ body, classifiable call.1 = true ∧ classifiable call.2.1 = true) →
    ∃ ds, gatherConstraints body = .ok ds ∧
      ds.length = (body.filter (fun call => !soundCall call)).length := by
  induction body with
  | nil => intro _; exact ⟨[], rfl, rfl⟩
  | cons call rest ih =>
      intro h
      obtain ⟨l, r, sp⟩ := call
      have hc := h (l, r, sp) (List.mem_cons_self _ _)
      have hrest := ih (fun c hc' => h c (List.mem_cons_of_mem _ hc'))
      obtain ⟨ds, hds, hlen⟩ := hrest
      cases hs : soundCall (l, r, sp)
      · have hM : normEqB l r = false := by
          rw [show soundCall (l, r, sp) = normEqB l r from rfl] at hs
          exact hs
        obtain ⟨c, hcp⟩ :=
          (addUnification_pushed_iff l r sp hc.1 hc.2).2 hM
        refine ⟨c :: ds, ?_, ?_⟩
        · rw [show gatherConstraints ((l, r, sp) :: rest) =
            (match addUnification l r sp with
            | .panicked => .panicked
            | .skipped => gatherConstraints rest
            | .pushed c =>
              match gatherConstraints rest with
              | .ok cs => .ok (c :: cs)
              | .typeError => .typeError
              | .panicked => .panicked) from rfl, hcp, hds]
        · rw [List.filter_cons]
          simp only [hs, Bool.not_false, if_true, List.length_cons, hlen]
      · have hM : normEqB l r = true := by
          rw [show soundCall (l, r, sp) = normEqB l r from rfl] at hs
          exact hs
        have hsk := (addUnification_skipped_iff l r sp hc.1 hc.2).2 hM
        refine ⟨ds, ?_, ?_⟩
        · rw [show gatherConstraints ((l, r, sp) :: rest) =
            (match addUnification l r sp with
            | .panicked => .panicked
            | .skipped => gatherConstraints rest
            | .pushed c =>
              match gatherConstraints rest with
              | .ok cs => .ok (c :: cs)
              | .typeError => .typeError
              | .panicked => .panicked) from rfl, hsk, hds]
        · rw [List.filter_cons]
          simp only [hs, Bool.not_true, Bool.false_eq_true, if_false, hlen]

/-! ## Rendering lemmas -/

/-- The tail of a `" * "`-joined rendering. -/
def joinTail : List String → String
  | [] => ""
  | x :: rest => " * " ++ x ++ joinTail rest

theorem strAssoc (a b c : String) : a ++ b ++ c = a ++ (b ++ c) := by
  apply String.ext
  simp [String.data_append, List.append_assoc]

theorem renderSpec_cons (x : String) (xs : List String) :
    renderSpec (x :: xs) = x ++ joinTail xs := by
  induction xs generalizing x with
  | nil =>
      show x = x ++ ""
      rw [String.append_empty]
  | cons y ys ih =>
      show x ++ " * " ++ renderSpec (y :: ys) = x ++ (" * " ++ y ++ joinTail ys)
      rw [ih y, strAssoc, strAssoc]

theorem describeEntries_false (l : List (Gen × Entry)) :
    describeEntries l false = joinTail (l.map fragmentSpec) := by
  induction l with
  | nil => rfl
  | cons e rest ih =>
      simp only [describeEntries]
      rw [ih]
      simp only [List.map_cons, joinTail]
      apply String.ext
      simp [String.data_append, fragmentSpec, List.append_assoc]

theorem describeEntries_true (l : List (Gen × Entry)) :
    describeEntries l true = renderSpec (l.map fragmentSpec) := by
  cases l with
  | nil => rfl
  | cons e rest =>
      simp only [describeEntries]
      rw [describeEntries_false]
      simp only [List.map_cons, renderSpec_cons]
      apply String.ext
      simp [String.data_append, fragmentSpec, List.append_assoc]

/-! ## Runtime unit lemmas -/

/-- The keys of a runtime dimensions map. -/
def RKeys (l : List (Nat × String × Int)) : List Nat := l.map Prod.fst

theorem dimsLookup_update (l : List (Nat × String × Int))
    (id id' : Nat) (name : String) (pos : Bool) :
    dimsLookup (dimsUpdate l id name pos) id' =
      if id' = id then
        some (match dimsLookup l id with
          | some v => (v.1, v.2 + signOf pos)
          | none => (name, signOf pos))
      else dimsLookup l id' := by
  induction l with
  | nil =>
      by_cases h : id' = id
      · subst h
        simp [dimsUpdate, dimsLookup, signCombine, signOf]
      · have h' : ¬ id = id' := fun he => h he.symm
        simp [dimsUpdate, dimsLookup, h, h']
  | cons e rest ih =>
      obtain ⟨k, v⟩ := e
      by_cases hk : k = id
      · subst hk
        by_cases h : id' = k
        · subst h
          simp [dimsUpdate, dimsLookup, signCombine]
        · have h' : ¬ k = id' := fun he => h he.symm
          simp [dimsUpdate, dimsLookup, h, h']
      · by_cases h : id' = k
        · subst h
          simp [dimsUpdate, dimsLookup, hk]
        · have h' : ¬ k = id' := fun he => h he.symm
          simp only [dimsUpdate, if_neg hk, dimsLookup, if_neg h']
          rw [ih]

theorem rkeys_update (l : List (Nat × String × Int))
    (id : Nat) (name : String) (pos : Bool) :
    RKeys (dimsUpdate l id name pos) =
      if id ∈ RKeys l then RKeys l else RKeys l ++ [id] := by
  induction l with
  | nil => simp [dimsUpdate, RKeys]
  | cons e rest ih =>
      obtain ⟨k, v⟩ := e
      by_cases hk : k = id
      · subst hk
        simp [dimsUpdate, RKeys]
      · have hik : ¬ id = k := fun h => hk h.symm
        simp only [dimsUpdate, if_neg hk, RKeys, List.map_cons] at ih ⊢
        rw [ih]
        by_cases hm : id ∈ List.map Prod.fst rest <;>
          simp [hm, hik, List.mem_cons]

theorem nodup_rkeys_update {l : List (Nat × String × Int)}
    (hnd : (RKeys l).Nodup) (id : Nat) (name : String) (pos : Bool) :
    (RKeys (dimsUpdate l id name pos)).Nodup := by
  rw [rkeys_update]
  by_cases hm : id ∈ RKeys l
  · simp [hm, hnd]
  · simp only [hm, if_false]
    rw [List.nodup_append]
    exact ⟨hnd, List.nodup_singleton id, by
      intro x hx hxg
      rw [List.mem_singleton] at hxg
      subst hxg
      exact hm hx⟩

theorem dimsLookup_eq_some_of_mem (l : List (Nat × String × Int)) :
    ∀ {id : Nat} {v : String × Int},
    (RKeys l).Nodup → (id, v) ∈ l → dimsLookup l id = some v := by
  induction l with
  | nil => intro _ _ _ h; simp at h
  | cons e rest ih =>
      intro id v hnd h
      obtain ⟨k, w⟩ := e
      rw [show RKeys ((k, w) :: rest) = k :: RKeys rest from rfl,
        List.nodup_cons] at hnd
      rcases List.mem_cons.1 h with he | hm
      · rw [Prod.mk.injEq] at he
        obtain ⟨h1, h2⟩ := he
        subst h1; subst h2
        simp [dimsLookup]
      · have hk : ¬ k = id := by
          intro hkg; subst hkg
          exact hnd.1 (List.mem_map_of_mem Prod.fst hm)
        simp [dimsLookup, hk]
        exact ih hnd.2 hm

theorem mem_dimsUpdate {l : List (Nat × String × Int)}
    {id : Nat} {name : String} {pos : Bool} {e : Nat × String × Int} :
    e ∈ dimsUpdate l id name pos → (e ∈ l ∧ e.1 ≠ id) ∨ e.1 = id := by
  induction l with
  | nil =>
      intro h
      simp [dimsUpdate] at h
      right
      rw [h]
  | cons hd rest ih =>
      intro h
      obtain ⟨k, v⟩ := hd
      by_cases hk : k = id
      · simp only [dimsUpdate, if_pos hk] at h
        rcases List.mem_cons.1 h with he | hm
        · right; rw [he]; exact hk
        · by_cases hei : e.1 = id
          · right; exact hei
          · left; exact ⟨List.mem_cons_of_mem _ hm, hei⟩
      · simp only [dimsUpdate, if_neg hk] at h
        rcases List.mem_cons.1 h with he | hm
        · subst he
          by_cases hei : k = id
          · right; exact hei
          · left; exact ⟨List.mem_cons_self _ _, hei⟩
        · rcases ih hm with ⟨hin, hne⟩ | hid
          · left; exact ⟨List.mem_cons_of_mem _ hin, hne⟩
          · right; exact hid

theorem addBaseUnit_preserves (r : RuntimeUnit) (id : Nat) (name : String)
    (pos : Bool) (hnd : (RKeys r.dimensions).Nodup) (hz : noZeroRt r = true) :
    (RKeys (r.addBaseUnit id name pos).dimensions).Nodup ∧
      noZeroRt (r.addBaseUnit id name pos) = true := by
  have hz' : ∀ e ∈ r.dimensions, e.2.2 ≠ 0 := by
    rw [noZeroRt, List.all_eq_true] at hz
    intro e he
    have := hz e he
    simpa using this
  have hnd1 : (RKeys (dimsUpdate r.dimensions id name pos)).Nodup :=
    nodup_rkeys_update hnd id name pos
  rw [RuntimeUnit.addBaseUnit]
  set dims := dimsUpdate r.dimensions id name pos with hdims
  by_cases hE : (match dimsLookup dims id with
    | some v => v.2 == 0
    | none => false) = true
  · simp only [hE, if_true]
    constructor
    · exact ((List.filter_sublist _).map Prod.fst).nodup hnd1
    · rw [noZeroRt, List.all_eq_true]
      intro e he
      rw [dimsRemove] at he
      have hne : e.1 ≠ id := by
        have := List.of_mem_filter he
        simpa using this
      have hmem : e ∈ dims := List.mem_of_mem_filter he
      rcases mem_dimsUpdate hmem with ⟨hin, _⟩ | hid
      · simpa using hz' e hin
      · exact absurd hid hne
  · simp only [hE, if_false]
    constructor
    · exact hnd1
    · rw [noZeroRt, List.all_eq_true]
      intro e he
      rcases mem_dimsUpdate he with ⟨hin, _⟩ | hid
      · simpa using hz' e hin
      · obtain ⟨k, v⟩ := e
        simp only at hid
        subst hid
        have hlook : dimsLookup dims k = some v :=
          dimsLookup_eq_some_of_mem dims hnd1 he
        rw [hlook] at hE
        simp only [beq_iff_eq] at hE
        simpa using hE

theorem addToRuntime_preserves (u : RtUnit) :
    ∀ (r : RuntimeUnit) (pos : Bool),
      (RKeys r.dimensions).Nodup → noZeroRt r = true →
      (RKeys ((u.addToRuntime r pos)).dimensions).Nodup ∧
        noZeroRt (u.addToRuntime r pos) = true := by
  induction u with
  | baseU id =>
      intro r pos hnd hz
      exact addBaseUnit_preserves r id (baseName id) pos hnd hz
  | mulU a b iha ihb =>
      intro r pos hnd hz
      obtain ⟨h1, h2⟩ := iha r pos hnd hz
      exact ihb (a.addToRuntime r pos) pos h1 h2
  | invU a iha =>
      intro r pos hnd hz
      exact iha r (!pos) hnd hz
  | dimensionlessU =>
      intro r pos hnd hz
      exact ⟨hnd, hz⟩

/-! ## Remaining support lemmas -/

theorem addUnification_step1_panicked {l r : UnitTy} {sp : Span}
    (h : (UnitConstraints.mkFrom sp).add l true true = .panicked) :
    addUnification l r sp = .panicked := by
  rw [show addUnification l r sp =
    (match (UnitConstraints.mkFrom sp).add l true true with
    | .typeError => .skipped
    | .panicked => .panicked
    | .ok c1 =>
      match c1.add r false true with
      | .typeError => .skipped
      | .panicked => .panicked
      | .ok c2 =>
        let c3 := c2.simplify
        if hashMapEqB c3.left c3.right then .skipped
        else .pushed c3) from rfl, h]

theorem addTy_classifiable_of_ok (ty : UnitTy) :
    ∀ (t : Table) (pos : Bool) (t' : Table),
      Table.addTy t ty pos = .ok t' → classifiable ty = true := by
  induction ty with
  | mul a b iha ihb =>
      intro t pos t' h
      rw [show Table.addTy t (.mul a b) pos = (Table.addTy t a pos).bind
        (fun t1 => Table.addTy t1 b pos) from rfl] at h
      cases h1 : Table.addTy t a pos with
      | ok t1 =>
          rw [h1] at h
          have h2 : Table.addTy t1 b pos = .ok t' := h
          show (classifiable a && classifiable b) = true
          rw [iha t pos t1 h1, ihb t1 pos t' h2]
          rfl
      | typeError => rw [h1] at h; cases h
      | panicked => rw [h1] at h; cases h
  | inv a iha =>
      intro t pos t' h
      exact iha t (!pos) t' h
  | dimensionless => intro _ _ _ _; rfl
  | base id => intro _ _ _ _; rfl
  | param id => intro _ _ _ _; rfl
  | error => intro t pos t' h; cases h
  | other => intro t pos t' h; cases h

theorem noZeroExp_simplify (t : Table) : noZeroExp (Table.simplify t) = true := by
  rw [noZeroExp, List.all_eq_true]
  intro e he
  rw [Table.simplify] at he
  exact (List.mem_filter.1 he).2

theorem normEqB_of_contrib_eq {X Y : UnitTy}
    (hx : classifiable X = true) (hy : classifiable Y = true)
    (h : ∀ g, contrib X 1 g = contrib Y 1 g) : normEqB X Y = true := by
  obtain ⟨t1, hn1, hnd1, hsi1, hl1⟩ := normalize_char X hx
  obtain ⟨t2, hn2, hnd2, hsi2, hl2⟩ := normalize_char Y hy
  rw [normEqB, hn1, hn2]
  show hashMapEqB t1 t2 = true
  rw [hashMapEqB_eq_true_iff hnd1 hnd2 hsi1 hsi2]
  intro g
  rw [hl1 g, hl2 g, h g]

theorem visitSites_eq_gather (sites : List ExprSite) :
    visitSites sites = gatherConstraints (methodCallsOf sites) := by
  induction sites with
  | nil => rfl
  | cons s rest ih =>
      cases s with
      | methodCall c =>
          obtain ⟨l, r, sp⟩ := c
          rw [show visitSites (ExprSite.methodCall (l, r, sp) :: rest) =
            (match addUnification l r sp with
            | .panicked => .panicked
            | .skipped => visitSites rest
            | .pushed c =>
              match visitSites rest with
              | .ok cs => .ok (c :: cs)
              | .typeError => .typeError
              | .panicked => .panicked) from rfl]
          rw [show methodCallsOf (ExprSite.methodCall (l, r, sp) :: rest) =
            (l, r, sp) :: methodCallsOf rest from rfl]
          rw [show gatherConstraints ((l, r, sp) :: methodCallsOf rest) =
            (match addUnification l r sp with
            | .panicked => .panicked
            | .skipped => gatherConstraints (methodCallsOf rest)
            | .pushed c =>
              match gatherConstraints (methodCallsOf rest) with
              | .ok cs => .ok (c :: cs)
              | .typeError => .typeError
              | .panicked => .panicked) from rfl]
          rw [ih]
      | pathCall c =>
          rw [show visitSites (ExprSite.pathCall c :: rest) =
            visitSites rest from rfl,
            show methodCallsOf (ExprSite.pathCall c :: rest) =
              methodCallsOf rest from rfl]
          exact ih
      | closure inner =>
          rw [show visitSites (ExprSite.closure inner :: rest) =
            visitSites rest from rfl,
            show methodCallsOf (ExprSite.closure inner :: rest) =
              methodCallsOf rest from rfl]
          exact ih

/-! ## Claim theorems -/

/-- C1 counterexample: an analyzed body (untainted, with a fn-decl, not
itself a nested closure) containing exactly one `unify` call site that is
unsound and has classifiable sides produces no diagnostic at all — not
exactly one — when the call is written in path form (`Measure::unify(x)`,
which `visit_expr` does not handle) or sits inside a nested closure body
(which the traversal never enters).  This refutes the claim's "exactly
one UnitMismatch diagnostic" for every such call site. -/
theorem unify_call_missed_by_visitor :
    classifiable (UnitTy.base 0) = true ∧
    classifiable (UnitTy.base 1) = true ∧
    normEqB (UnitTy.base 0) (UnitTy.base 1) = false ∧
    allUnifyCalls [ExprSite.pathCall (UnitTy.base 0, UnitTy.base 1, 5)] =
      [(UnitTy.base 0, UnitTy.base 1, 5)] ∧
    analyzeBody false false true
      [ExprSite.pathCall (UnitTy.base 0, UnitTy.base 1, 5)] = .ok [] ∧
    allUnifyCalls
      [ExprSite.closure [ExprSite.methodCall (UnitTy.base 0, UnitTy.base 1, 5)]]
      = [(UnitTy.base 0, UnitTy.base 1, 5)] ∧
    analyzeBody false false true
      [ExprSite.closure [ExprSite.methodCall (UnitTy.base 0, UnitTy.base 1, 5)]]
      = .ok [] := by
  refine ⟨by decide, by decide, by decide, by simp [allUnifyCalls],
    by decide, by simp [allUnifyCalls], by decide⟩

/-- C1 (amended): for every `unify` call site written in method-call
syntax that the visitor's traversal reaches (i.e. not inside a nested
closure body) with both sides classifiable, the checker records exactly
one mismatch constraint (hence emits exactly one `UnitMismatch`
diagnostic) when the normalized forms of source and target differ, and
records nothing when they are equal; over an analyzed body (untainted,
not a nested closure, with a function declaration) the diagnostics are
exactly one per offending reached method-syntax call, so a body all of
whose reached method-syntax `unify` calls are sound produces no
diagnostics.  Path-form calls and calls inside nested closure bodies are
not checked. -/
theorem unify_check_method_syntax_sites
    (l r : UnitTy) (sp : Span) (body : List ExprSite)
    (hl : classifiable l = true) (hr : classifiable r = true)
    (hb : ∀ call ∈ methodCallsOf body, classifiable call.1 = true ∧
      classifiable call.2.1 = true) :
    (addUnification l r sp = .skipped ↔ normEqB l r = true) ∧
    ((∃ c, addUnification l r sp = .pushed c) ↔ normEqB l r = false) ∧
    (∃ ds, analyzeBody false false true body = .ok ds ∧
      ds.length = ((methodCallsOf body).filter
        (fun call => !soundCall call)).length) ∧
    ((∀ call ∈ methodCallsOf body, soundCall call = true) →
      analyzeBody false false true body = .ok []) := by
  refine ⟨addUnification_skipped_iff l r sp hl hr,
    addUnification_pushed_iff l r sp hl hr, ?_, ?_⟩
  · obtain ⟨ds, h1, h2⟩ := gather_char (methodCallsOf body) hb
    refine ⟨ds, ?_, h2⟩
    rw [show analyzeBody false false true body = visitSites body from rfl,
      visitSites_eq_gather]
    exact h1
  · intro hs
    obtain ⟨ds, h1, h2⟩ := gather_char (methodCallsOf body) hb
    have hnil : (methodCallsOf body).filter (fun call => !soundCall call)
        = [] := by
      rw [List.filter_eq_nil_iff]
      intro call hc
      simp [hs call hc]
    rw [hnil] at h2
    simp only [List.length_nil] at h2
    rw [List.length_eq_zero] at h2
    rw [show analyzeBody false false true body = visitSites body from rfl,
      visitSites_eq_gather, h1, h2]

/-- Witness for the amended C1 at concrete inputs: a sound reached
method-syntax call is skipped. -/
theorem unify_check_method_syntax_sites_witness :
    addUnification (UnitTy.base 0) (UnitTy.base 0) 0 = UnifyOutcome.skipped :=
  ((unify_check_method_syntax_sites (.base 0) (.base 0) 0
    [ExprSite.methodCall ((UnitTy.base 1), (UnitTy.base 1), 3)]
    (by decide) (by decide) (by decide)).1).2 (by decide)

/-- C2: the normalizer's recursive `add` satisfies the structural rules:
its effect on the exponent recorded for every generator is the additive
merge of the expression's signed contribution, where the contribution of
`Dimensionless` is 0 under any sign, a generator contributes its sign `s`
to itself, `Product` contributes the sum of both operands under the same
sign, `Inverse` contributes its operand under the negated sign, and the
`positive` flag threads the sign `s ∈ {+1, -1}`. -/
theorem normalizer_structural_rules
    (ty : UnitTy) (t : Table) (pos : Bool) (t' : Table)
    (h : Table.addTy t ty pos = .ok t') :
    (∀ g : Gen, Table.expOf t' g = Table.expOf t g + contrib ty (signOf pos) g) ∧
    (∀ (s : Int) (g : Gen), contrib .dimensionless s g = 0) ∧
    (∀ (id : Nat) (s : Int), contrib (.base id) s (Gen.base id) = s) ∧
    (∀ (id : Nat) (s : Int), contrib (.param id) s (Gen.param id) = s) ∧
    (∀ (a b : UnitTy) (s : Int) (g : Gen),
      contrib (.mul a b) s g = contrib a s g + contrib b s g) ∧
    (∀ (a : UnitTy) (s : Int) (g : Gen),
      contrib (.inv a) s g = contrib a (-s) g) ∧
    (∀ b : Bool, signOf (!b) = -(signOf b)) := by
  refine ⟨?_, fun s g => rfl, fun id s => by simp [contrib],
    fun id s => by simp [contrib], fun a b s g => rfl, fun a s g => rfl,
    signOf_not⟩
  intro g
  have hc := addTy_classifiable_of_ok ty t pos t' h
  obtain ⟨t'', h'', hl⟩ := addTy_ok_of_classifiable ty hc t pos
  rw [h] at h''
  have ht : t' = t'' := by cases h''; rfl
  subst ht
  rw [Table.expOf, Table.expOf, hl g]
  cases ho : occursB ty g
  · rw [contrib_eq_zero_of_not_occurs ty g (signOf pos) ho]
    cases hlt : Table.lookup t g <;> simp
  · simp only [if_true]
    cases hlt : Table.lookup t g <;> simp [expOfOpt]

/-- Witness for C2 at a concrete input. -/
theorem normalizer_structural_rules_witness :
    (∀ g : Gen, Table.expOf [(Gen.base 0, ([0], 1))] g =
      Table.expOf [] g + contrib (.base 0) (signOf true) g) ∧
    (∀ (s : Int) (g : Gen), contrib .dimensionless s g = 0) ∧
    (∀ (id : Nat) (s : Int), contrib (.base id) s (Gen.base id) = s) ∧
    (∀ (id : Nat) (s : Int), contrib (.param id) s (Gen.param id) = s) ∧
    (∀ (a b : UnitTy) (s : Int) (g : Gen),
      contrib (.mul a b) s g = contrib a s g + contrib b s g) ∧
    (∀ (a : UnitTy) (s : Int) (g : Gen),
      contrib (.inv a) s g = contrib a (-s) g) ∧
    (∀ b : Bool, signOf (!b) = -(signOf b)) :=
  normalizer_structural_rules (.base 0) [] true [(Gen.base 0, ([0], 1))]
    (by decide)

/-- C3: normalized-form equality (as the checker decides it) is invariant
under commuting and reassociating `Product`, and more generally the
normalized form depends only on the summed signed exponents of the
generators. -/
theorem normalization_commutative_associative
    (A B C D E : UnitTy)
    (hA : classifiable A = true) (hB : classifiable B = true)
    (hC : classifiable C = true) (hD : classifiable D = true)
    (hE : classifiable E = true) (hDE : ∀ g, contrib D 1 g = contrib E 1 g) :
    normEqB (.mul A B) (.mul B A) = true ∧
    normEqB (.mul (.mul A B) C) (.mul A (.mul B C)) = true ∧
    normEqB D E = true := by
  refine ⟨?_, ?_, normEqB_of_contrib_eq hD hE hDE⟩
  · apply normEqB_of_contrib_eq
    · show (classifiable A && classifiable B) = true
      rw [hA, hB]
      rfl
    · show (classifiable B && classifiable A) = true
      rw [hA, hB]
      rfl
    · intro g
      show contrib A 1 g + contrib B 1 g = contrib B 1 g + contrib A 1 g
      exact add_comm _ _
  · apply normEqB_of_contrib_eq
    · show ((classifiable A && classifiable B) && classifiable C) = true
      rw [hA, hB, hC]
      rfl
    · show (classifiable A && (classifiable B && classifiable C)) = true
      rw [hA, hB, hC]
      rfl
    · intro g
      show contrib A 1 g + contrib B 1 g + contrib C 1 g =
        contrib A 1 g + (contrib B 1 g + contrib C 1 g)
      exact add_assoc _ _ _

/-- Witness for C3 at concrete inputs. -/
theorem normalization_commutative_associative_witness :
    normEqB (.mul (.base 0) (.param 1)) (.mul (.param 1) (.base 0)) = true ∧
    normEqB (.mul (.mul (.base 0) (.param 1)) (.base 2))
      (.mul (.base 0) (.mul (.param 1) (.base 2))) = true ∧
    normEqB (.base 3) (.base 3) = true :=
  normalization_commutative_associative (.base 0) (.param 1) (.base 2)
    (.base 3) (.base 3) (by decide) (by decide) (by decide) (by decide)
    (by decide) (fun g => rfl)

/-- C4: every normalized form the checker compares (the tables of a pushed
mismatch constraint, produced by `simplify`) contains no generator with
exponent 0, and the cancellation law holds: a generator times its inverse
normalizes to the empty mapping. -/
theorem compared_forms_have_no_zero_exponent
    (l r : UnitTy) (sp : Span) (g : Gen) :
    outcomeNoZeros (addUnification l r sp) = true ∧
    normalize (.mul (genTy g) (.inv (genTy g))) = .ok [] := by
  constructor
  · cases h1 : (UnitConstraints.mkFrom sp).add l true true with
    | typeError => rw [addUnification_step1_typeError h1]; rfl
    | panicked => rw [addUnification_step1_panicked h1]; rfl
    | ok c1 =>
        rw [addUnification_step1_ok h1]
        cases h2 : c1.add r false true with
        | typeError => rfl
        | panicked => rfl
        | ok c2 =>
            by_cases hb : hashMapEqB c2.simplify.left c2.simplify.right = true
            · simp only [hb, if_true]
              rfl
            · rw [Bool.not_eq_true] at hb
              simp only [hb, Bool.false_eq_true, if_false]
              show (noZeroExp c2.simplify.left && noZeroExp c2.simplify.right)
                = true
              rw [show c2.simplify.left = Table.simplify c2.left from rfl,
                show c2.simplify.right = Table.simplify c2.right from rfl,
                noZeroExp_simplify, noZeroExp_simplify]
              rfl
  · cases g <;>
      simp [normalize, Table.addTy, Table.addOne, insertSpan, Res.bind,
        Table.simplify, genTy, Gen.defSpan]

/-- C5 counterexample: a unit-expression of an unexpected shape (one that
is neither a combinator, a generator, nor an erroneous type) does not make
the pass skip the constraint silently — the `panic!` arm of
`UnitConstraints::add` raises a hard failure, contradicting the claim that
any unclassifiable shape is skipped without a hard failure. -/
theorem unexpected_shape_raises_panic :
    addUnification UnitTy.other UnitTy.dimensionless 0 =
      UnifyOutcome.panicked := by decide

/-- C5 (amended): if either side's unit-expression contains an
already-erroneous type — and neither side contains an unexpected
non-error shape — the pass aborts that single constraint silently,
emitting no diagnostic and raising no hard failure. -/
theorem type_error_constraint_skipped (l r : UnitTy) (sp : Span)
    (hpl : panicFree l = true) (hpr : panicFree r = true)
    (he : hasError l = true ∨ hasError r = true) :
    addUnification l r sp = .skipped :=
  addUnification_skipped_of_error l r sp hpl hpr he

/-- Witness for the amended C5 at a concrete input. -/
theorem type_error_constraint_skipped_witness :
    addUnification UnitTy.error UnitTy.dimensionless 0 =
      UnifyOutcome.skipped :=
  type_error_constraint_skipped .error .dimensionless 0 (by decide)
    (by decide) (Or.inl (by decide))

/-- C6: a body whose typeck tables are `tainted_by_errors` is skipped
entirely — `analyze` returns before visiting any expression, so no
diagnostic is emitted for any `unify` call in it, whatever the body
contains. -/
theorem tainted_body_skipped (isNestedClosure hasFnDecl : Bool)
    (body : List UnifyCall) :
    analyze true isNestedClosure hasFnDecl body = .ok [] := rfl

/-- C7: multiplying two measures tags the result with `Mul<U, V>` and
multiplies the underlying values; dividing tags the result with
`Mul<U, Inv<V>>` and divides the underlying values. -/
theorem measure_mul_div_compose_units {T : Type} [Mul T] [Div T]
    (a b : Measure T) :
    (a.mulM b).unit = RtUnit.mulU a.unit b.unit ∧
    (a.mulM b).value = a.value * b.value ∧
    (a.divM b).unit = RtUnit.mulU a.unit (RtUnit.invU b.unit) ∧
    (a.divM b).value = a.value / b.value :=
  ⟨rfl, rfl, rfl, rfl⟩

/-- C8 counterexample: the diagnostic rendering follows the table's
iteration order with no positives-first reordering — a reachable mismatch
constraint (pushed by `add_unification`) renders its left side as
`"u0^-1 * u1"`, with the negative-exponent generator first, refuting the
claim that positive exponents always precede negative ones. -/
theorem describe_negative_first_example :
    addUnification (.mul (.inv (.base 0)) (.base 1)) .dimensionless 0 =
      .pushed ⟨[(Gen.base 0, ([0], -1)), (Gen.base 1, ([2], 1))], [], 0⟩ ∧
    UnitConstraints.describe
      ⟨[(Gen.base 0, ([0], -1)), (Gen.base 1, ([2], 1))], [], 0⟩ true =
      "u0^-1 * u1" ∧
    posBeforeNeg [(Gen.base 0, ([0], -1)), (Gen.base 1, ([2], 1))] = false := by
  refine ⟨by decide, by decide, by decide⟩

/-- C8 (amended): in the rendering of each side of a UnitMismatch
diagnostic, each generator is shown as `name` if its exponent is 1 and as
`name^exponent` otherwise, and generators are joined by `" * "`, in the
underlying mapping's iteration order — with no guarantee that positive
exponents precede negative ones. -/
theorem describe_renders_each_generator (c : UnitConstraints) (left : Bool) :
    UnitConstraints.describe c left =
      renderSpec ((if left then c.left else c.right).map fragmentSpec) :=
  describeEntries_true _

/-- C9: `unify` returns a measure whose underlying value is exactly the
input's value; only the unit tag changes (to the target unit). -/
theorem unify_preserves_value {T : Type} (m : Measure T) (target : RtUnit) :
    (m.unify target).value = m.value ∧ (m.unify target).unit = target :=
  ⟨rfl, rfl⟩

/-- C10: the `RuntimeUnit` produced by `as_runtime` contains no dimension
entry with exponent 0 (each `add_to_runtime` step removes an entry whose
running exponent reaches 0), so the panic-on-zero-exponent branches of
`RuntimeUnit::to_string` are unreachable on any `as_runtime` result. -/
theorem as_runtime_has_no_zero_exponent (u : RtUnit) :
    noZeroRt (RtUnit.asRuntime u) = true ∧
    (RuntimeUnit.toStringR (RtUnit.asRuntime u)).isSome = true := by
  have h := addToRuntime_preserves u { dimensions := [] } true
    (by simp [RKeys]) (by rfl)
  have hz : noZeroRt (RtUnit.asRuntime u) = true := h.2
  refine ⟨hz, ?_⟩
  have hany : ((RtUnit.asRuntime u).dimensions.any (fun e => e.2.2 == 0))
      = false := by
    cases hA : (RtUnit.asRuntime u).dimensions.any (fun e => e.2.2 == 0)
    · rfl
    · exfalso
      obtain ⟨e, he, hp⟩ := List.any_eq_true.1 hA
      rw [noZeroRt, List.all_eq_true] at hz
      have := hz e he
      rw [beq_iff_eq] at hp
      simp [hp] at this
  rw [RuntimeUnit.toStringR, hany]
  rfl

end Yaiouom
